import Mathlib

/-!
Verification development for the Easy3D keyframe interpolator
(src/easy3d/renderer/key_frame_interpolator.cpp).

The embedding uses exact rational arithmetic (`ℚ`) for the source's `float`
scalars: none of the verified properties depends on rounding, and every
definition stays executable.  Square roots (the source's `std::sqrt`,
`vec3::normalize` and `easy3d::distance`) are embedded by `ratSqrt`, an
exact rational square root that agrees with the real square root on
perfect-square rationals (all concrete inputs used below are engineered to
be perfect squares) and is positive on positive inputs, like `sqrt`.
Quaternion slerp/squad (implemented in easy3d's `quat.h`, which is not part
of the sources here) are modelled from the spec; the theorems below never
depend on their interior values.
-/

namespace Easy3D

/-- Exact rational square root surrogate for the source's `std::sqrt`:
for `x ≤ 0` it returns 0; otherwise it takes `Nat.sqrt` of the (reduced)
numerator and denominator.  It is exact whenever both are perfect squares,
and it is positive for positive `x` (as the float `sqrt` is). -/
def ratSqrt (x : ℚ) : ℚ :=
  if x ≤ 0 then 0 else (Nat.sqrt x.num.toNat : ℚ) / (Nat.sqrt x.den : ℚ)

/-- A 3D vector with rational components (easy3d `vec3`). -/
structure Vec3 where
  x : ℚ
  y : ℚ
  z : ℚ
deriving DecidableEq

instance : Zero Vec3 := ⟨⟨0, 0, 0⟩⟩

instance : Add Vec3 := ⟨fun a b => ⟨a.x + b.x, a.y + b.y, a.z + b.z⟩⟩

instance : Sub Vec3 := ⟨fun a b => ⟨a.x - b.x, a.y - b.y, a.z - b.z⟩⟩

instance : Neg Vec3 := ⟨fun a => ⟨-a.x, -a.y, -a.z⟩⟩

instance : SMul ℚ Vec3 := ⟨fun c a => ⟨c * a.x, c * a.y, c * a.z⟩⟩

/-- Squared distance between two points (easy3d `distance2`). -/
def dist2 (a b : Vec3) : ℚ :=
  (a.x - b.x) ^ 2 + (a.y - b.y) ^ 2 + (a.z - b.z) ^ 2

/-- Chord distance between two points (easy3d `distance`, which is
`sqrt (distance2 a b)`); the square root is the `ratSqrt` surrogate. -/
def distQ (a b : Vec3) : ℚ := ratSqrt (dist2 a b)

/-- Squared length of a vector. -/
def norm2 (v : Vec3) : ℚ := v.x ^ 2 + v.y ^ 2 + v.z ^ 2

/-- Modelled from the spec: easy3d's `vec3::normalize` (its header `vec.h`
is not among the sources).  It divides the vector by its length, guarding
the zero vector.  No claim below depends on its value. -/
def normalizeV (v : Vec3) : Vec3 :=
  if norm2 v = 0 then 0 else (1 / ratSqrt (norm2 v)) • v

/-- A quaternion with rational components (easy3d `quat`, stored x,y,z,w). -/
structure Quat where
  x : ℚ
  y : ℚ
  z : ℚ
  w : ℚ
deriving DecidableEq

namespace Quat

/-- Quaternion dot product (easy3d `quat::dot`). -/
def dot (a b : Quat) : ℚ := a.x * b.x + a.y * b.y + a.z * b.z + a.w * b.w

/-- Component-wise negation (easy3d `quat::negate`); `q` and `-q` encode
the same rotation. -/
def negQ (a : Quat) : Quat := ⟨-a.x, -a.y, -a.z, -a.w⟩

/-- Component-wise linear blend of two quaternions. -/
def qlerp (a b : Quat) (t : ℚ) : Quat :=
  ⟨a.x + t * (b.x - a.x), a.y + t * (b.y - a.y),
   a.z + t * (b.z - a.z), a.w + t * (b.w - a.w)⟩

/-- Modelled from the spec: `quat::squad_tangent` (the squad tangent over
the flip-corrected previous/current/next orientations; `quat.h` is not
among the sources).  The true formula uses the quaternion log/exp, which
is transcendental; it is modelled by a computable surrogate that is a
function of the same three arguments.  No claim below depends on its
value. -/
def squadTangent (prev cur next : Quat) : Quat :=
  ⟨cur.x + (next.x - prev.x) / 4, cur.y + (next.y - prev.y) / 4,
   cur.z + (next.z - prev.z) / 4, cur.w + (next.w - prev.w) / 4⟩

/-- Modelled from the spec: `quat::squad a ta tb b t`, spherical cubic
interpolation (`quat.h` is not among the sources).  The spec gives the
squad shape `slerp (slerp a b t) (slerp ta tb t) (2 t (1-t))`; slerp is
transcendental, so it is modelled with the linear blend `qlerp`, which
agrees with slerp at the endpoints `t = 0` and `t = 1` — the only places
where a claim inspects the result. -/
def squad (a ta tb b : Quat) (t : ℚ) : Quat :=
  qlerp (qlerp a b t) (qlerp ta tb t) (2 * t * (1 - t))

end Quat

/-- A pose: position plus orientation (easy3d `Frame`, restricted to the
two channels the interpolator reads and writes). -/
structure Frame where
  pos : Vec3
  orient : Quat
deriving DecidableEq

/-- A keyframe: a pose stamped with a time, carrying the derived tangents
(`KeyFrameInterpolator::KeyFrame`). -/
structure KeyFrame where
  pos : Vec3
  orient : Quat
  time : ℚ
  tgP : Vec3
  tgQ : Quat
deriving DecidableEq

/-- The `KeyFrame(const Frame&, float)` constructor: records pose and time;
the tangents are left default-initialized (they are recomputed by
`updateModifiedFrameValues` before any use), modelled as zero. -/
def KeyFrame.ofFrame (f : Frame) (t : ℚ) : KeyFrame :=
  { pos := f.pos, orient := f.orient, time := t, tgP := 0, tgQ := ⟨0, 0, 0, 0⟩ }

/-- Default keyframe used for out-of-range list indexing (`List.getD`);
every theorem keeps its indices in range. -/
def dKF : KeyFrame := KeyFrame.ofFrame ⟨0, ⟨0, 0, 0, 1⟩⟩ 0

/-- `KeyFrameInterpolator::firstTime`: time of the first keyframe, 0 when
the track is empty. -/
def firstTime (kfs : List KeyFrame) : ℚ :=
  match kfs with
  | [] => 0
  | k :: _ => k.time

/-- `KeyFrameInterpolator::lastTime`: time of the last keyframe, 0 when the
track is empty. -/
def lastTime : List KeyFrame → ℚ
  | [] => 0
  | [k] => k.time
  | _ :: k :: rest => lastTime (k :: rest)

/-- `KeyFrameInterpolator::duration`: `lastTime - firstTime`. -/
def trackDuration (kfs : List KeyFrame) : ℚ := lastTime kfs - firstTime kfs

/-- Modelled from the spec: the header (not among the sources) exposes the
frame rate `fps` (samples/second, default 30, §6 of the spec) through
`interpolation_period()`, the period between samples in milliseconds, as
consumed by the millisecond-to-second conversions at lines 112 and 486 of
the source.  The integer `fps` field is generalized to `ℚ`. -/
def interpolation_period (fps : ℚ) : ℚ := 1000 / fps

/-- The sampling step of the cache rebuild, in seconds: the source computes
`interpolation_speed() * interpolation_period() / 1000.0f` (line 486 in
`do_interpolate`, line 539 in `smooth`). -/
def sample_interval (speed fps : ℚ) : ℚ :=
  speed * interpolation_period fps / 1000

/-- Mutable state of a `KeyFrameInterpolator` as far as the verified
operations observe it: the keyframe track, the cached dense path, the cache
validity flag, the playback resume index, the running flag, and the
reference chord distance used by auto-timed appends (a `static` local in
the source, modelled as a state field as §9 of the spec prescribes; the
claims only ever exercise a single interpolator). -/
structure KFIState where
  keyframes : List KeyFrame
  interpolated_path : List Frame
  pathIsValid : Bool
  last_stopped_index : ℕ
  started : Bool
  period_reference_distance : ℚ
deriving DecidableEq

/-- The freshly constructed interpolator: empty track, invalid cache,
index 0, not running; the static reference distance starts at 0. -/
def initState : KFIState :=
  { keyframes := [], interpolated_path := [], pathIsValid := false,
    last_stopped_index := 0, started := false, period_reference_distance := 0 }

/-- `KeyFrameInterpolator::stop_interpolation`: stops the timer (the timer
itself is external; only the running flag is observable here). -/
def stop_interpolation (st : KFIState) : KFIState :=
  { st with started := false }

/-- `KeyFrameInterpolator::add_keyframe(const Frame&, float)` (lines
131-141): the keyframe is appended only when the track is empty or the new
time exceeds the last keyframe's time (otherwise the violation is only
logged); the cache invalidation, the resume-index reset and the playback
stop happen unconditionally, after the branch. -/
def add_keyframe_time (st : KFIState) (f : Frame) (t : ℚ) : KFIState :=
  let kfs' :=
    if st.keyframes ≠ [] ∧ t ≤ lastTime st.keyframes then st.keyframes
    else st.keyframes ++ [KeyFrame.ofFrame f t]
  { st with
    keyframes := kfs'
    pathIsValid := false
    last_stopped_index := 0
    started := false }

/-- `KeyFrameInterpolator::add_keyframe(const Frame&)` (lines 152-176),
the auto-timed append: time 0 for the first keyframe; time 1 for the
second, recording the chord distance between the first two keyframes in
the static reference distance; afterwards the previous time plus
`1.0 * distance(back, new) / period_reference_distance`.  (If the recorded
reference distance is zero the float source divides by zero, producing an
infinite time; rational division by zero yields 0 instead, so the theorems
below assume a positive reference distance.) -/
def add_keyframe_auto (st : KFIState) (f : Frame) : KFIState :=
  let t : ℚ :=
    if st.keyframes = [] then 0
    else if st.keyframes.length = 1 then 1
    else (st.keyframes.getLastD dKF).time +
      1 * distQ (st.keyframes.getLastD dKF).pos f.pos / st.period_reference_distance
  let st1 :=
    if st.keyframes.length = 1 then
      { st with period_reference_distance := distQ (st.keyframes.headD dKF).pos f.pos }
    else st
  add_keyframe_time st1 f t

/-- `KeyFrameInterpolator::delete_last_keyframe` (lines 144-149): the
source calls `keyframes_.pop_back()` with no emptiness guard — on an empty
track this is out-of-bounds (undefined behavior), modelled as `none`.
Otherwise the last keyframe is dropped, the cache invalidated, the resume
index reset, and playback stopped. -/
def delete_last_keyframe (st : KFIState) : Option KFIState :=
  if st.keyframes = [] then none
  else some
    { st with
      keyframes := st.keyframes.dropLast
      pathIsValid := false
      last_stopped_index := 0
      started := false }

/-- `KeyFrameInterpolator::delete_path` (lines 179-194): stops playback,
frees all keyframes, clears the cached path, resets the validity flag and
the resume index.  (The two drawables are external rendering resources and
are not modelled; the static reference distance is not reset by the
source.) -/
def delete_path (st : KFIState) : KFIState :=
  { st with
    keyframes := []
    interpolated_path := []
    pathIsValid := false
    last_stopped_index := 0
    started := false }

/-- `KeyFrameInterpolator::read_keyframes` (lines 283-307).  The text file
is modelled as already parsed: `none` when the file cannot be opened (the
function returns `false` at once, before `delete_path`), otherwise the list
of frames read (the leading `num_key_frames` count and the per-frame
indices of a well-formed file are determined by that list).  Each frame is
re-appended through the auto-timed `add_keyframe` (line 303); the result is
`keyframes_.size() > 0`. -/
def read_keyframes (st : KFIState) (file : Option (List Frame)) :
    KFIState × Bool :=
  match file with
  | none => (st, false)
  | some fs =>
      let st' := fs.foldl add_keyframe_auto (delete_path st)
      (st', decide (0 < st'.keyframes.length))

/-- `KeyFrame::computeTangent` (lines 388-406): the distance-compensated
chord rule for the position tangent — whichever neighbor is closer (by
squared distance), the farther neighbor's offset is rescaled to the closer
distance before averaging — and the squad tangent for the orientation
tangent.  `std::sqrt` and `vec3::normalize` are embedded through
`ratSqrt`/`normalizeV`. -/
def computeTangent (prev kf next : KeyFrame) : KeyFrame :=
  let sd_prev := dist2 prev.pos kf.pos
  let sd_next := dist2 next.pos kf.pos
  let tgP :=
    if sd_prev < sd_next then
      let new_next := kf.pos + ratSqrt sd_prev • normalizeV (next.pos - kf.pos)
      (1 / 2 : ℚ) • (new_next - prev.pos)
    else
      let new_prev := kf.pos + ratSqrt sd_next • normalizeV (prev.pos - kf.pos)
      (1 / 2 : ℚ) • (next.pos - new_prev)
  { kf with
    tgP := tgP
    tgQ := Quat.squadTangent prev.orient kf.orient next.orient }

/-- `KeyFrame::flipOrientationIfNeeded` (lines 408-411): negate the
orientation in place when its dot product with the previous (possibly
flipped) orientation is negative. -/
def flipOrientationIfNeeded (prev : Quat) (kf : KeyFrame) : KeyFrame :=
  if Quat.dot prev kf.orient < 0 then { kf with orient := Quat.negQ kf.orient }
  else kf

/-- The first pass of `updateModifiedFrameValues` (lines 311-317): walk the
keyframes in order, flipping each orientation against the previous
(already flip-corrected) one. -/
def flipPass (prev : Quat) : List KeyFrame → List KeyFrame
  | [] => []
  | kf :: rest =>
      let kf' := flipOrientationIfNeeded prev kf
      kf' :: flipPass kf'.orient rest

/-- The second pass of `updateModifiedFrameValues` (lines 319-331): each
keyframe's tangents are computed from its immediate neighbors, the first
and last keyframe standing in for their own missing neighbor.
(`computeTangent` reads only positions and orientations, which this pass
never changes, so passing the not-yet-updated neighbors is faithful.) -/
def tangentPass (prev : KeyFrame) : List KeyFrame → List KeyFrame
  | [] => []
  | [kf] => [computeTangent prev kf kf]
  | kf :: next :: rest => computeTangent prev kf next :: tangentPass kf (next :: rest)

/-- `KeyFrameInterpolator::updateModifiedFrameValues` (lines 310-332): the
flip-correction pass seeded with the first orientation, then the tangent
pass seeded with the (flip-corrected) first keyframe.  (The source reads
`keyFrames.front()` unguarded; it is only invoked on non-empty tracks —
line 479 — and the empty case is mapped to the empty list.) -/
def updateModifiedFrameValues : List KeyFrame → List KeyFrame
  | [] => []
  | kf :: rest =>
      match flipPass kf.orient (kf :: rest) with
      | [] => []
      | f0 :: frest => tangentPass f0 (f0 :: frest)

/-- Modelled from the spec: easy3d's `epsilon<float>()` (its header is not
among the sources), the small positive threshold under which a time bracket
counts as degenerate. -/
def epsF : ℚ := 1 / 100000

/-- The forward scan of `getRelatedKeyFramesForTime` for `relatedFrames[2]`
(lines 428-433): advance while the current keyframe's time is below the
query, stopping at the last element.  The fuel argument is `kfs.length` at
the top call, which bounds the scan; within range it never runs out. -/
def findSecondFuel (kfs : List KeyFrame) (T : ℚ) : ℕ → ℕ → ℕ
  | 0, i => i
  | fuel + 1, i =>
      if (kfs.getD i dKF).time < T then
        (if i + 1 < kfs.length then findSecondFuel kfs T fuel (i + 1) else i)
      else i

/-- `KeyFrameInterpolator::getRelatedKeyFramesForTime` (lines 414-447) as a
pure function returning four indices.  The source's backward scan for
`relatedFrames[1]` starts at `begin()` and is bounded there, so it always
terminates immediately at index 0; `relatedFrames[2]` then scans forward
from it.  The `== keyFrames.back()` pointer comparisons hold exactly at the
last index, since the keyframes are distinct heap allocations. -/
def getRelatedIndices (kfs : List KeyFrame) (T : ℚ) : ℕ × ℕ × ℕ × ℕ :=
  let i2 := findSecondFuel kfs T kfs.length 0
  let i1 := if i2 ≠ 0 ∧ T < (kfs.getD i2 dKF).time then i2 - 1 else i2
  let i0 := if i1 ≠ 0 then i1 - 1 else i1
  let i3 := if i2 = kfs.length - 1 then i2 else i2 + 1
  (i0, i1, i2, i3)

/-- One spline evaluation: the body of the sampling loop of
`do_interpolate` (lines 488-521) together with `computeSpline` (lines
450-454).  `dt` below the epsilon threshold forces `alpha = 0`; otherwise
`alpha` is the fractional position inside the bracketing segment.  The
position is the cubic Hermite form; the orientation is squad at `alpha`. -/
def evaluate (kfs : List KeyFrame) (T : ℚ) : Frame :=
  let r := getRelatedIndices kfs T
  let p1 := kfs.getD r.2.1 dKF
  let p2 := kfs.getD r.2.2.1 dKF
  let delta := p2.pos - p1.pos
  let v1 := (3 : ℚ) • delta - (2 : ℚ) • p1.tgP - p2.tgP
  let v2 := (-2 : ℚ) • delta + p1.tgP + p2.tgP
  let dt := p2.time - p1.time
  let alpha := if |dt| < epsF then 0 else (T - p1.time) / dt
  { pos := p1.pos + alpha • (p1.tgP + alpha • (v1 + alpha • v2))
    orient := Quat.squad p1.orient p1.tgQ p2.tgQ p2.orient alpha }

/-- Iteration count of the sampling loop `for (time = a; time < b;
time += interval)` (line 487, with `b = lastTime() + interval`): the least
`n` with `a + n * interval ≥ b`, i.e. `⌈(b - a) / interval⌉` clamped at 0.
For `interval ≤ 0` with `a < b` the source loop never terminates; that
unreachable-in-terminating-runs case is modelled as zero iterations (for
`a ≥ b` the source loop body indeed never runs, whatever the interval). -/
def stepCount (a b interval : ℚ) : ℕ :=
  if 0 < interval then (⌈(b - a) / interval⌉).toNat else 0

/-- `n` iterations of the sampling loop starting at time `a`, each adding
`interval` to the running time (the loop accumulates exactly in rational
arithmetic). -/
def sampleTimesGo (a interval : ℚ) : ℕ → List ℚ
  | 0 => []
  | n + 1 => a :: sampleTimesGo (a + interval) interval n

/-- The evaluation times of the sampling loop: `stepCount` iterations
accumulating from `a` in steps of `interval`. -/
def sampleTimes (a b interval : ℚ) : List ℚ :=
  sampleTimesGo a interval (stepCount a b interval)

/-- `KeyFrameInterpolator::do_interpolate` (lines 477-530): clear the
output, return it empty for an empty control track, otherwise recompute
tangents and sample the spline from `boundFirst` up to (exclusively)
`boundLast + interval`.  The loop bounds come from the interpolator's own
member track (`firstTime()`/`lastTime()`), which is distinct from the
control track `keyFrames` when called from `smooth`, so they are explicit
arguments here. -/
def do_interpolate (speed fps : ℚ) (boundFirst boundLast : ℚ)
    (keyFrames : List KeyFrame) : List Frame :=
  if keyFrames = [] then []
  else
    let kfs := updateModifiedFrameValues keyFrames
    let interval := sample_interval speed fps
    (sampleTimes boundFirst (boundLast + interval) interval).map (evaluate kfs)

/-- The tail of the synthetic-track construction in `smooth` (lines
551-555): each further sample's assigned time is the previous assigned
time plus `interval * distance(previous, current) / ref`. -/
def buildSyntheticGo (interval ref : ℚ) (prev : KeyFrame) :
    List Frame → List KeyFrame
  | [] => []
  | f :: fs =>
      let k := KeyFrame.ofFrame f (prev.time + interval * distQ prev.pos f.pos / ref)
      k :: buildSyntheticGo interval ref k fs

/-- The synthetic track built by `smooth` (lines 540-556): the cached
samples become keyframes, timed by the auto-time chord rule with
`interval` as the first-interval time — 0 for the first, `interval` for
the second (recording the reference chord distance), then
`buildSyntheticGo`. -/
def buildSynthetic (interval : ℚ) : List Frame → List KeyFrame
  | [] => []
  | [f] => [KeyFrame.ofFrame f 0]
  | f0 :: f1 :: rest =>
      let k0 := KeyFrame.ofFrame f0 0
      let ref := distQ f0.pos f1.pos
      let k1 := KeyFrame.ofFrame f1 interval
      k0 :: k1 :: buildSyntheticGo interval ref k1 rest

/-- Total duration of the synthetic track built by `smooth`:
`as_key_frames.back()->time() - as_key_frames.front()->time()` (line
559). -/
def syntheticDuration (speed fps : ℚ) (frames : List Frame) : ℚ :=
  let ak := buildSynthetic (sample_interval speed fps) frames
  lastTime ak - firstTime ak

/-- `KeyFrameInterpolator::smooth` (lines 533-573): below two samples,
return unchanged.  Otherwise build the synthetic track, compute
`ratio = duration() / newDuration` — `duration()` is the duration of the
interpolator's own keyframe track `kfs` — and test `is_nan(ratio)`.  For
the finite operands arising here, the float quotient is NaN exactly when
it is `0 / 0`, i.e. when both durations are zero; that is the embedded
guard.  When the guard fails the assigned times are rescaled by the ratio
and the cache is re-evaluated over the synthetic track (with the member
track's time bounds).  In the source a zero `newDuration` with non-zero
`duration()` yields an infinite ratio (not NaN): the guard passes, the
cache is cleared, and the resampling loop degenerates; rational division
by zero gives ratio 0 here, and in both semantics the cache does not stay
unchanged. -/
def smooth (speed fps : ℚ) (kfs : List KeyFrame) (frames : List Frame) :
    List Frame :=
  if frames.length < 2 then frames
  else
    let interval := sample_interval speed fps
    let ak := buildSynthetic interval frames
    let newDur := lastTime ak - firstTime ak
    let dur := trackDuration kfs
    if dur = 0 ∧ newDur = 0 then frames
    else
      let r := dur / newDur
      let scaled := ak.map fun k => { k with time := k.time * r }
      do_interpolate speed fps (firstTime kfs) (lastTime kfs) scaled

/-- Modelled from the claim (spec §4.1), the spec-side time recursion for
comparison with the code: each subsequent keyframe's time is the previous
time plus the chord distance from the previous position divided by the
recorded reference distance. -/
def autoTimesSpecGo (ref : ℚ) (prevPos : Vec3) (prevT : ℚ) :
    List Vec3 → List ℚ
  | [] => []
  | p :: ps => (prevT + distQ prevPos p / ref) ::
      autoTimesSpecGo ref p (prevT + distQ prevPos p / ref) ps

/-- Modelled from the claim (spec §4.1): time 0 for the first keyframe,
1 for the second, then the chord-normalized recursion with the reference
distance recorded between the first two positions. -/
def autoTimesSpec : List Vec3 → List ℚ
  | [] => []
  | [_] => [0]
  | p0 :: p1 :: rest => 0 :: 1 :: autoTimesSpecGo (distQ p0 p1) p1 1 rest

/-!  Concrete states, tracks and pose lists used by the witnesses and
counterexamples below. -/

/-- The keyframe track used to refute claim C2: two keyframes spanning a
non-zero duration (1 second). -/
def kfsC2 : List KeyFrame :=
  [KeyFrame.ofFrame ⟨⟨0, 0, 0⟩, ⟨0, 0, 0, 1⟩⟩ 0,
   KeyFrame.ofFrame ⟨⟨1, 0, 0⟩, ⟨0, 0, 0, 1⟩⟩ 1]

/-- The cached sample sequence used for claim C2: two distinct samples. -/
def framesC2 : List Frame :=
  [⟨⟨0, 0, 0⟩, ⟨0, 0, 0, 1⟩⟩, ⟨⟨1, 0, 0⟩, ⟨0, 0, 0, 1⟩⟩]

/-- A state used to refute claim C3: non-empty track, valid cache, a
non-zero resume index, and running playback. -/
def stC3 : KFIState :=
  { keyframes := [dKF], interpolated_path := [], pathIsValid := true,
    last_stopped_index := 5, started := true, period_reference_distance := 0 }

/-- A state used to refute claim C5: its track already holds a keyframe. -/
def stC5 : KFIState := { initState with keyframes := [dKF] }

/-- The two-keyframe track used to instantiate the endpoint theorem. -/
def kfsC6 : List KeyFrame :=
  [KeyFrame.ofFrame ⟨⟨0, 0, 0⟩, ⟨0, 0, 0, 1⟩⟩ 0,
   KeyFrame.ofFrame ⟨⟨1, 0, 0⟩, ⟨0, 0, 0, 1⟩⟩ 1]

/-- The three-keyframe track used to instantiate the bracket theorem. -/
def kfsC7 : List KeyFrame :=
  [KeyFrame.ofFrame ⟨⟨0, 0, 0⟩, ⟨0, 0, 0, 1⟩⟩ 0,
   KeyFrame.ofFrame ⟨⟨1, 0, 0⟩, ⟨0, 0, 0, 1⟩⟩ 1,
   KeyFrame.ofFrame ⟨⟨2, 0, 0⟩, ⟨0, 0, 0, 1⟩⟩ 2]

/-- The three poses used to instantiate `add_keyframe_auto_times`. -/
def psC9 : List Frame :=
  [⟨⟨0, 0, 0⟩, ⟨0, 0, 0, 1⟩⟩, ⟨⟨1, 0, 0⟩, ⟨0, 0, 0, 1⟩⟩,
   ⟨⟨3, 0, 0⟩, ⟨0, 0, 0, 1⟩⟩]

/-!  Claim C1: the sampling step. -/

/-- Claim C1 (as stated, refuted): the sampling step used by the cache
rebuild does not equal `(1 / frameRate) / playbackSpeed`; at frame rate 30
and playback speed 2 the source's step is `2 * (1000/30) / 1000 = 1/15`
seconds, while the claimed value is `1/60` seconds. -/
theorem sample_interval_claim_false :
    sample_interval 2 30 ≠ (1 / 30) / 2 := by
  norm_num [sample_interval, interpolation_period]

/-- The sampling loop runs for exactly `stepCount` iterations. -/
theorem sampleTimes_length (a b interval : ℚ) :
    (sampleTimes a b interval).length = stepCount a b interval := by
  suffices h : ∀ (n : ℕ) (a : ℚ), (sampleTimesGo a interval n).length = n by
    exact h _ a
  intro n
  induction n with
  | zero => intro a; rfl
  | succ n ih => intro a; simp [sampleTimesGo, ih]

/-- Element `j` of the accumulated loop times is `a + j * interval`. -/
theorem sampleTimesGo_getD (interval : ℚ) :
    ∀ (n j : ℕ) (a : ℚ), j < n →
      (sampleTimesGo a interval n).getD j 0 = a + (j : ℚ) * interval := by
  intro n
  induction n with
  | zero => intro j a h; omega
  | succ n ih =>
      intro j a h
      cases j with
      | zero => simp [sampleTimesGo]
      | succ j =>
          have hj : j < n := by omega
          have := ih j (a + interval) hj
          simp only [sampleTimesGo, List.getD_cons_succ, this]
          push_cast
          ring

/-- Element `j` of the sampling-time list is `a + j * interval`. -/
theorem sampleTimes_getD (a b interval : ℚ) (j : ℕ)
    (h : j < (sampleTimes a b interval).length) :
    (sampleTimes a b interval).getD j 0 = a + (j : ℚ) * interval := by
  rw [sampleTimes_length] at h
  exact sampleTimesGo_getD interval _ j a h

/-- Claim C1 (amended): for every frame rate `f` and playback speed `s`,
the sampling step used by the cache rebuild — the spacing between
consecutive spline evaluation times sampled by `do_interpolate`, and the
first-interval time of the synthetic track built by `smooth` — equals
`s * (1 / f)`, i.e. `s / f`: the playback speed multiplies the step, it
does not divide it. -/
theorem sample_interval_eq_speed_div_fps (speed fps a b : ℚ) (j : ℕ)
    (hj : j + 1 < (sampleTimes a b (sample_interval speed fps)).length) :
    sample_interval speed fps = speed / fps ∧
    (sampleTimes a b (sample_interval speed fps)).getD (j + 1) 0 -
      (sampleTimes a b (sample_interval speed fps)).getD j 0 =
      sample_interval speed fps := by
  constructor
  · rcases eq_or_ne fps 0 with h | h
    · simp [sample_interval, interpolation_period, h]
    · field_simp [sample_interval, interpolation_period]
      ring
  · rw [sampleTimes_getD _ _ _ _ hj,
      sampleTimes_getD _ _ _ _ (Nat.lt_of_succ_lt hj)]
    push_cast
    ring

/-- Concrete instantiation of `sample_interval_eq_speed_div_fps` at frame
rate 30 and playback speed 2: the step is 1/15 second (not 1/60), and two
consecutive sample times over the bounds [0, 1) differ by exactly that
step. -/
theorem sample_interval_eq_speed_div_fps_witness :
    sample_interval 2 30 = 2 / 30 ∧
    (sampleTimes 0 1 (sample_interval 2 30)).getD 1 0 -
      (sampleTimes 0 1 (sample_interval 2 30)).getD 0 0 =
      sample_interval 2 30 :=
  sample_interval_eq_speed_div_fps 2 30 0 1 0 (by
    norm_num [sampleTimes_length, stepCount, sample_interval,
      interpolation_period])

/-!  Claim C2: the degenerate-duration guard of `smooth`. -/

/-- Claim C2 (as stated, refuted): at playback speed 0 the sampling step is
0, so the synthetic track built by `smooth` from two cached samples has
zero total duration; but because the member track's duration is 1, the
ratio is not 0/0, `is_nan` does not fire, and the re-evaluation is applied:
the cached sample sequence does not stay unchanged (the source clears it
and resamples with a degenerate ratio). -/
theorem smooth_claim_false :
    2 ≤ framesC2.length ∧ syntheticDuration 0 30 framesC2 = 0 ∧
    smooth 0 30 kfsC2 framesC2 ≠ framesC2 := by
  refine ⟨by norm_num [framesC2], ?_, ?_⟩
  · norm_num [syntheticDuration, buildSynthetic, buildSyntheticGo, framesC2,
      sample_interval, interpolation_period, lastTime, firstTime,
      KeyFrame.ofFrame]
  · norm_num [smooth, framesC2, kfsC2, buildSynthetic, buildSyntheticGo,
      sample_interval, interpolation_period, lastTime, firstTime,
      trackDuration, KeyFrame.ofFrame, do_interpolate, sampleTimes, stepCount,
      sampleTimesGo]
    simp

/-- Claim C2 (amended): for every cached sample sequence of size ≥ 2 whose
synthetic track has zero total duration, `smooth` detects the degenerate
condition and leaves the cached sequence unchanged only when the original
track's duration is also zero — then the float ratio is 0/0, i.e. NaN,
which is what the source's `is_nan` guard tests before logging and
skipping the pass. -/
theorem smooth_skips_on_degenerate (speed fps : ℚ) (kfs : List KeyFrame)
    (frames : List Frame) (h2 : 2 ≤ frames.length)
    (hnew : syntheticDuration speed fps frames = 0)
    (hdur : trackDuration kfs = 0) :
    smooth speed fps kfs frames = frames := by
  have hlt : ¬ frames.length < 2 := by omega
  simp only [syntheticDuration] at hnew
  simp only [smooth]
  rw [if_neg hlt, if_pos ⟨hdur, hnew⟩]

/-- Concrete instantiation of `smooth_skips_on_degenerate`: with an empty
member track (duration 0) and playback speed 0 (synthetic duration 0), the
two cached samples are left unchanged. -/
theorem smooth_skips_on_degenerate_witness :
    smooth 0 30 [] framesC2 = framesC2 :=
  smooth_skips_on_degenerate 0 30 [] framesC2 (by norm_num [framesC2])
    (by norm_num [syntheticDuration, buildSynthetic, buildSyntheticGo,
      framesC2, sample_interval, interpolation_period, lastTime, firstTime,
      KeyFrame.ofFrame])
    (by norm_num [trackDuration, lastTime, firstTime])

/-!  Claim C8: orientation continuity after the flip pass. -/

/-- The dot product of a quaternion with itself is a sum of squares. -/
theorem Quat.dot_self_nonneg (q : Quat) : 0 ≤ Quat.dot q q := by
  unfold Quat.dot
  nlinarith [mul_self_nonneg q.x, mul_self_nonneg q.y, mul_self_nonneg q.z,
    mul_self_nonneg q.w]

/-- Negating one side negates the dot product. -/
theorem Quat.dot_negQ (a b : Quat) : Quat.dot a (Quat.negQ b) = -Quat.dot a b := by
  simp only [Quat.dot, Quat.negQ]
  ring

/-- After flip correction, the previous orientation and the corrected
current one have non-negative dot product. -/
theorem flip_dot_nonneg (prev : Quat) (kf : KeyFrame) :
    0 ≤ Quat.dot prev (flipOrientationIfNeeded prev kf).orient := by
  by_cases h : Quat.dot prev kf.orient < 0
  · simp only [flipOrientationIfNeeded, if_pos h]
    rw [Quat.dot_negQ]
    linarith
  · simp only [flipOrientationIfNeeded, if_neg h]
    exact not_lt.mp h

/-- The flip pass produces a sequence whose orientations chain with
non-negative dot products, starting from the seed orientation. -/
theorem flipPass_chain (l : List KeyFrame) :
    ∀ prev : Quat,
      List.Chain (fun a b : Quat => 0 ≤ Quat.dot a b) prev
        ((flipPass prev l).map (fun k => k.orient)) := by
  induction l with
  | nil => intro prev; simp [flipPass]
  | cons kf rest ih =>
      intro prev
      simp only [flipPass, List.map_cons]
      exact List.Chain.cons (flip_dot_nonneg prev kf) (ih _)

/-- The tangent pass does not touch orientations. -/
theorem tangentPass_map_orient (l : List KeyFrame) :
    ∀ prev : KeyFrame,
      (tangentPass prev l).map (fun k => k.orient) =
        l.map (fun k => k.orient) := by
  induction l with
  | nil => intro prev; rfl
  | cons kf rest ih =>
      intro prev
      cases rest with
      | nil => rfl
      | cons next rest' =>
          simp only [tangentPass, List.map_cons]
          rw [ih kf]
          rfl

/-- Claim C8: for every non-empty keyframe list, after the flip-correction
pass of `updateModifiedFrameValues` (the version of `recomputeTangents` in
the source), every pair of consecutive orientations in the resulting
sequence has non-negative quaternion dot product. -/
theorem recomputeTangents_orientation_chain (kfs : List KeyFrame)
    (h : kfs ≠ []) :
    List.Chain' (fun a b : Quat => 0 ≤ Quat.dot a b)
      ((updateModifiedFrameValues kfs).map (fun k => k.orient)) := by
  match kfs with
  | [] => exact absurd rfl h
  | kf :: rest =>
      have hkf : flipOrientationIfNeeded kf.orient kf = kf := by
        unfold flipOrientationIfNeeded
        rw [if_neg (not_lt.mpr (Quat.dot_self_nonneg kf.orient))]
      have hflip : flipPass kf.orient (kf :: rest) =
          kf :: flipPass kf.orient rest := by
        simp only [flipPass, hkf]
      simp only [updateModifiedFrameValues, hflip]
      rw [tangentPass_map_orient]
      simp only [List.map_cons]
      exact flipPass_chain rest kf.orient

/-- Concrete instantiation of `recomputeTangents_orientation_chain`: a
two-keyframe track whose raw orientations have negative dot product; the
flip pass corrects the second one and the chain condition holds. -/
theorem recomputeTangents_orientation_chain_witness :
    List.Chain' (fun a b : Quat => 0 ≤ Quat.dot a b)
      ((updateModifiedFrameValues
        [KeyFrame.ofFrame ⟨⟨0, 0, 0⟩, ⟨0, 0, 0, 1⟩⟩ 0,
         KeyFrame.ofFrame ⟨⟨1, 0, 0⟩, ⟨0, 0, 0, -1⟩⟩ 1]).map
        (fun k => k.orient)) :=
  recomputeTangents_orientation_chain _ (by simp)

/-!  Basic component lemmas for the vector operations and the bracket
search. -/

/-- Component form of vector addition. -/
@[simp] theorem Vec3.add_def (a b : Vec3) :
    a + b = ⟨a.x + b.x, a.y + b.y, a.z + b.z⟩ := rfl

/-- Component form of scalar multiplication. -/
@[simp] theorem Vec3.smul_def (c : ℚ) (a : Vec3) :
    c • a = ⟨c * a.x, c * a.y, c * a.z⟩ := rfl

/-- Adding a zero-scaled vector is the identity. -/
theorem Vec3.add_zero_smul (p X : Vec3) : p + (0 : ℚ) • X = p := by
  cases p
  simp

/-- `firstTime` is the time of the element at index 0. -/
theorem firstTime_eq_getD (kfs : List KeyFrame) (hne : kfs ≠ []) :
    firstTime kfs = (kfs.getD 0 dKF).time := by
  cases kfs with
  | nil => exact absurd rfl hne
  | cons k l => rfl

/-- `lastTime` of a two-or-more list ignores the head. -/
theorem lastTime_cons_cons (a b : KeyFrame) (l : List KeyFrame) :
    lastTime (a :: b :: l) = lastTime (b :: l) := rfl

/-- `lastTime` is the time of the element at the last index. -/
theorem lastTime_eq_getD (kfs : List KeyFrame) :
    ∀ d : KeyFrame, kfs ≠ [] →
      lastTime kfs = (kfs.getD (kfs.length - 1) d).time := by
  induction kfs with
  | nil => intro d h; exact absurd rfl h
  | cons a l ih =>
      intro d _
      cases l with
      | nil => rfl
      | cons b l' =>
          rw [lastTime_cons_cons, ih d (by simp)]
          simp [List.length_cons, List.getD_cons_succ]

/-- Strictly increasing times, in index form. -/
theorem time_lt_of_pairwise (kfs : List KeyFrame)
    (hpw : List.Pairwise (fun a b : KeyFrame => a.time < b.time) kfs) :
    ∀ i j, i < j → j < kfs.length →
      (kfs.getD i dKF).time < (kfs.getD j dKF).time := by
  intro i j hij hj
  have hi : i < kfs.length := lt_trans hij hj
  rw [List.getD_eq_getElem _ _ hi, List.getD_eq_getElem _ _ hj]
  exact List.pairwise_iff_getElem.mp hpw i j hi hj hij

/-- Full characterization of the forward scan: the result is at least the
start index, in range, everything strictly before it is below the query
time, and either the result's time reaches the query or the result is the
last index. -/
theorem findSecondFuel_spec (kfs : List KeyFrame) (T : ℚ) :
    ∀ fuel i : ℕ, i < kfs.length → kfs.length ≤ fuel + i →
      i ≤ findSecondFuel kfs T fuel i ∧
      findSecondFuel kfs T fuel i < kfs.length ∧
      (∀ j, i ≤ j → j < findSecondFuel kfs T fuel i →
        (kfs.getD j dKF).time < T) ∧
      (T ≤ (kfs.getD (findSecondFuel kfs T fuel i) dKF).time ∨
        findSecondFuel kfs T fuel i = kfs.length - 1) := by
  intro fuel
  induction fuel with
  | zero => intro i hi hle; omega
  | succ fuel ih =>
      intro i hi hle
      by_cases ht : (kfs.getD i dKF).time < T
      · by_cases hnext : i + 1 < kfs.length
        · obtain ⟨h1, h2, h3, h4⟩ := ih (i + 1) hnext (by omega)
          simp only [findSecondFuel, if_pos ht, if_pos hnext]
          refine ⟨by omega, h2, ?_, h4⟩
          intro j hij hjr
          rcases Nat.eq_or_lt_of_le hij with rfl | hlt
          · exact ht
          · exact h3 j (by omega) hjr
        · simp only [findSecondFuel, if_pos ht, if_neg hnext]
          exact ⟨le_refl i, hi, fun j hij hjr => by omega,
            Or.inr (by omega)⟩
      · simp only [findSecondFuel, if_neg ht]
        exact ⟨le_refl i, hi, fun j hij hjr => by omega,
          Or.inl (not_lt.mp ht)⟩

/-- At the query `firstTime`, the forward scan stays at index 0 and the
bracket degenerates to the first keyframe. -/
theorem getRelatedIndices_at_first (kfs : List KeyFrame)
    (hne : kfs ≠ [])
    (_hpw : List.Pairwise (fun a b : KeyFrame => a.time < b.time) kfs) :
    (getRelatedIndices kfs (firstTime kfs)).2.1 = 0 ∧
    (getRelatedIndices kfs (firstTime kfs)).2.2.1 = 0 := by
  have hlen : 0 < kfs.length := List.length_pos.mpr hne
  obtain ⟨h1, h2, h3, h4⟩ :=
    findSecondFuel_spec kfs (firstTime kfs) kfs.length 0 hlen (by omega)
  have hi2 : findSecondFuel kfs (firstTime kfs) kfs.length 0 = 0 := by
    by_contra hne0
    have h0 := h3 0 (le_refl 0) (Nat.pos_of_ne_zero hne0)
    rw [firstTime_eq_getD kfs hne] at h0
    exact lt_irrefl _ h0
  simp [getRelatedIndices, hi2]

/-- At the query `lastTime`, the forward scan reaches the last index and
the bracket degenerates to the last keyframe. -/
theorem getRelatedIndices_at_last (kfs : List KeyFrame)
    (hne : kfs ≠ [])
    (hpw : List.Pairwise (fun a b : KeyFrame => a.time < b.time) kfs) :
    (getRelatedIndices kfs (lastTime kfs)).2.1 = kfs.length - 1 ∧
    (getRelatedIndices kfs (lastTime kfs)).2.2.1 = kfs.length - 1 := by
  have hlen : 0 < kfs.length := List.length_pos.mpr hne
  obtain ⟨h1, h2, h3, h4⟩ :=
    findSecondFuel_spec kfs (lastTime kfs) kfs.length 0 hlen (by omega)
  have hi2 : findSecondFuel kfs (lastTime kfs) kfs.length 0 =
      kfs.length - 1 := by
    rcases h4 with hT | hl
    · by_contra hne'
      have hi2lt : findSecondFuel kfs (lastTime kfs) kfs.length 0 <
          kfs.length - 1 := by omega
      have hmono := time_lt_of_pairwise kfs hpw
        (findSecondFuel kfs (lastTime kfs) kfs.length 0) (kfs.length - 1)
        hi2lt (by omega)
      rw [← lastTime_eq_getD kfs dKF hne] at hmono
      exact absurd hT (not_le.mpr hmono)
    · exact hl
  have hT' : ¬(lastTime kfs < ((kfs[kfs.length - 1]?).getD dKF).time) := by
    rw [← List.getD_eq_getElem?_getD, ← lastTime_eq_getD kfs dKF hne]
    exact lt_irrefl _
  simp [getRelatedIndices, hi2, hT']

/-- When the two middle bracket indices coincide, `dt = 0` forces
`alpha = 0` and the evaluated position collapses to that keyframe's
position exactly. -/
theorem evaluate_degenerate (kfs : List KeyFrame) (T : ℚ) (i : ℕ)
    (h1 : (getRelatedIndices kfs T).2.1 = i)
    (h2 : (getRelatedIndices kfs T).2.2.1 = i) :
    (evaluate kfs T).pos = (kfs.getD i dKF).pos := by
  simp only [evaluate, h1, h2, sub_self, abs_zero]
  rw [if_pos (by norm_num [epsF] : (0 : ℚ) < epsF)]
  exact Vec3.add_zero_smul _ _

/-!  Claim C6: endpoint evaluation. -/

/-- Claim C6: for every track of size ≥ 2 with strictly increasing times,
evaluating the spline at `firstTime()` yields exactly the first keyframe's
position and evaluating at `lastTime()` yields exactly the last
keyframe's position; in both cases the located bracket degenerates
(`p1 = p2`, hence `dt = 0`, forcing `alpha = 0` and collapsing the Hermite
formula to the bracketing keyframe's pose). -/
theorem evaluate_endpoints (kfs : List KeyFrame) (h2 : 2 ≤ kfs.length)
    (hpw : List.Pairwise (fun a b : KeyFrame => a.time < b.time) kfs) :
    (evaluate kfs (firstTime kfs)).pos = (kfs.getD 0 dKF).pos ∧
    (evaluate kfs (lastTime kfs)).pos =
      (kfs.getD (kfs.length - 1) dKF).pos ∧
    (getRelatedIndices kfs (firstTime kfs)).2.1 =
      (getRelatedIndices kfs (firstTime kfs)).2.2.1 ∧
    (getRelatedIndices kfs (lastTime kfs)).2.1 =
      (getRelatedIndices kfs (lastTime kfs)).2.2.1 := by
  have hne : kfs ≠ [] := by
    intro h
    rw [h] at h2
    simp at h2
  obtain ⟨hf1, hf2⟩ := getRelatedIndices_at_first kfs hne hpw
  obtain ⟨hl1, hl2⟩ := getRelatedIndices_at_last kfs hne hpw
  exact ⟨evaluate_degenerate kfs _ 0 hf1 hf2,
    evaluate_degenerate kfs _ _ hl1 hl2,
    hf1.trans hf2.symm, hl1.trans hl2.symm⟩

/-- Concrete instantiation of `evaluate_endpoints` on a two-keyframe
track with times 0 and 1. -/
theorem evaluate_endpoints_witness :
    (evaluate kfsC6 (firstTime kfsC6)).pos = (kfsC6.getD 0 dKF).pos ∧
    (evaluate kfsC6 (lastTime kfsC6)).pos =
      (kfsC6.getD (kfsC6.length - 1) dKF).pos ∧
    (getRelatedIndices kfsC6 (firstTime kfsC6)).2.1 =
      (getRelatedIndices kfsC6 (firstTime kfsC6)).2.2.1 ∧
    (getRelatedIndices kfsC6 (lastTime kfsC6)).2.1 =
      (getRelatedIndices kfsC6 (lastTime kfsC6)).2.2.1 :=
  evaluate_endpoints kfsC6 (by norm_num [kfsC6])
    (by norm_num [kfsC6, KeyFrame.ofFrame, List.pairwise_cons])

/-!  Claim C7: the bracket search. -/

/-- Claim C7: for every non-empty track with strictly increasing times and
every query time, the bracket search returns indices `(p0,p1,p2,p3)` with
`p1`, `p2` in range; `p1.time ≤ time ≤ p2.time` for in-range queries;
`p1 = p2 =` first index for a query before the track and `p1 = p2 =` last
index for a query past it (clamping); `p0` the predecessor of `p1` (or
`p1` itself at the start) and `p3` the successor of `p2` (or `p2` itself
at the end). -/
theorem getRelatedIndices_bracket (kfs : List KeyFrame) (T : ℚ)
    (hne : kfs ≠ [])
    (hpw : List.Pairwise (fun a b : KeyFrame => a.time < b.time) kfs) :
    (getRelatedIndices kfs T).2.1 < kfs.length ∧
    (getRelatedIndices kfs T).2.2.1 < kfs.length ∧
    (firstTime kfs ≤ T → T ≤ lastTime kfs →
      (kfs.getD (getRelatedIndices kfs T).2.1 dKF).time ≤ T ∧
      T ≤ (kfs.getD (getRelatedIndices kfs T).2.2.1 dKF).time) ∧
    (T < firstTime kfs →
      (getRelatedIndices kfs T).2.1 = 0 ∧
      (getRelatedIndices kfs T).2.2.1 = 0) ∧
    (lastTime kfs < T →
      (getRelatedIndices kfs T).2.1 = kfs.length - 1 ∧
      (getRelatedIndices kfs T).2.2.1 = kfs.length - 1) ∧
    (getRelatedIndices kfs T).1 =
      (if (getRelatedIndices kfs T).2.1 = 0 then (getRelatedIndices kfs T).2.1
        else (getRelatedIndices kfs T).2.1 - 1) ∧
    (getRelatedIndices kfs T).2.2.2 =
      (if (getRelatedIndices kfs T).2.2.1 = kfs.length - 1
        then (getRelatedIndices kfs T).2.2.1
        else (getRelatedIndices kfs T).2.2.1 + 1) := by
  obtain ⟨h0le, hi2lt, hbelow, hlastd⟩ :=
    findSecondFuel_spec kfs T kfs.length 0 (List.length_pos.mpr hne)
      (by omega)
  have hGRI2 : (getRelatedIndices kfs T).2.2.1 =
      findSecondFuel kfs T kfs.length 0 := rfl
  have hGRI1 : (getRelatedIndices kfs T).2.1 =
      (if findSecondFuel kfs T kfs.length 0 ≠ 0 ∧
          T < (kfs.getD (findSecondFuel kfs T kfs.length 0) dKF).time
        then findSecondFuel kfs T kfs.length 0 - 1
        else findSecondFuel kfs T kfs.length 0) := rfl
  have hGRI0 : (getRelatedIndices kfs T).1 =
      (if (getRelatedIndices kfs T).2.1 ≠ 0
        then (getRelatedIndices kfs T).2.1 - 1
        else (getRelatedIndices kfs T).2.1) := rfl
  have hGRI3 : (getRelatedIndices kfs T).2.2.2 =
      (if (getRelatedIndices kfs T).2.2.1 = kfs.length - 1
        then (getRelatedIndices kfs T).2.2.1
        else (getRelatedIndices kfs T).2.2.1 + 1) := rfl
  refine ⟨?_, ?_, ?_, ?_, ?_, ?_, hGRI3⟩
  · rw [hGRI1]
    split_ifs <;> omega
  · rw [hGRI2]
    exact hi2lt
  · intro hf hl
    rw [firstTime_eq_getD kfs hne] at hf
    rw [lastTime_eq_getD kfs dKF hne] at hl
    constructor
    · rw [hGRI1]
      split_ifs with hc
      · exact le_of_lt (hbelow _ (Nat.zero_le _) (by omega))
      · by_cases hz : findSecondFuel kfs T kfs.length 0 = 0
        · rw [hz]
          exact hf
        · have hnlt : ¬ T <
              (kfs.getD (findSecondFuel kfs T kfs.length 0) dKF).time :=
            fun hTlt => hc ⟨hz, hTlt⟩
          exact not_lt.mp hnlt
    · rw [hGRI2]
      rcases hlastd with h | h
      · exact h
      · rw [h]
        exact hl
  · intro hTf
    rw [firstTime_eq_getD kfs hne] at hTf
    have hz : findSecondFuel kfs T kfs.length 0 = 0 := by
      by_contra h0
      exact absurd (hbelow 0 (le_refl 0) (Nat.pos_of_ne_zero h0))
        (not_lt.mpr (le_of_lt hTf))
    constructor
    · rw [hGRI1, hz]
      simp
    · rw [hGRI2]
      exact hz
  · intro hTl
    rw [lastTime_eq_getD kfs dKF hne] at hTl
    have hz : findSecondFuel kfs T kfs.length 0 = kfs.length - 1 := by
      rcases hlastd with h | h
      · rcases Nat.lt_or_ge (findSecondFuel kfs T kfs.length 0)
          (kfs.length - 1) with hlt | hge
        · have hmono := time_lt_of_pairwise kfs hpw
            (findSecondFuel kfs T kfs.length 0) (kfs.length - 1) hlt
            (by omega)
          linarith
        · omega
      · exact h
    constructor
    · have hnT : ¬(kfs.length - 1 ≠ 0 ∧
          T < (kfs.getD (kfs.length - 1) dKF).time) :=
        fun hc => not_lt.mpr (le_of_lt hTl) hc.2
      rw [hGRI1, hz, if_neg hnT]
    · rw [hGRI2]
      exact hz
  · rw [hGRI0]
    by_cases h : (getRelatedIndices kfs T).2.1 = 0 <;> simp [h]

/-- Concrete instantiation of `getRelatedIndices_bracket`: on the
three-keyframe track with times 0, 1, 2, the in-range query 1/2 is
bracketed by keyframe times on both sides. -/
theorem getRelatedIndices_bracket_witness :
    (kfsC7.getD (getRelatedIndices kfsC7 (1 / 2)).2.1 dKF).time ≤ 1 / 2 ∧
    (1 / 2 : ℚ) ≤
      (kfsC7.getD (getRelatedIndices kfsC7 (1 / 2)).2.2.1 dKF).time :=
  (getRelatedIndices_bracket kfsC7 (1 / 2) (by simp [kfsC7])
      (by norm_num [kfsC7, KeyFrame.ofFrame, List.pairwise_cons])).2.2.1
    (by norm_num [kfsC7, firstTime, KeyFrame.ofFrame])
    (by norm_num [kfsC7, lastTime, KeyFrame.ofFrame])

/-!  Claim C9: the auto-assigned append times. -/

/-- `lastTime` is the time of the last element, for any fallback. -/
theorem lastTime_eq_getLastD (l : List KeyFrame) :
    ∀ d : KeyFrame, l ≠ [] → lastTime l = (l.getLastD d).time := by
  induction l with
  | nil => intro d h; exact absurd rfl h
  | cons a l ih =>
      intro d _
      cases l with
      | nil => rfl
      | cons b l' =>
          rw [lastTime_cons_cons, List.getLastD_cons]
          exact ih a (by simp)

/-- An append whose time exceeds the last keyframe's time (or lands on an
empty track) is accepted: the new keyframe goes to the back and the usual
resets apply. -/
theorem add_keyframe_time_accepted (st : KFIState) (f : Frame) (t : ℚ)
    (h : st.keyframes = [] ∨ lastTime st.keyframes < t) :
    add_keyframe_time st f t =
      { st with
        keyframes := st.keyframes ++ [KeyFrame.ofFrame f t]
        pathIsValid := false
        last_stopped_index := 0
        started := false } := by
  have hcond : ¬(st.keyframes ≠ [] ∧ t ≤ lastTime st.keyframes) := by
    rcases h with h | h
    · simp [h]
    · exact fun hc => absurd hc.2 (not_le.mpr h)
  simp [add_keyframe_time, hcond]

/-- The generic step of the auto-append fold: from any state with at least
two keyframes and a positive recorded reference distance, folding further
poses appends them all, with times given by the spec-side recursion seeded
at the current last keyframe. -/
theorem foldAuto_aux (rest : List Frame) :
    ∀ st : KFIState,
      2 ≤ st.keyframes.length →
      0 < st.period_reference_distance →
      List.Chain (fun a b : Vec3 => 0 < distQ a b)
        (st.keyframes.getLastD dKF).pos (rest.map (fun f => f.pos)) →
      ((rest.foldl add_keyframe_auto st).keyframes.map (fun k => k.time) =
          st.keyframes.map (fun k => k.time) ++
            autoTimesSpecGo st.period_reference_distance
              (st.keyframes.getLastD dKF).pos
              (st.keyframes.getLastD dKF).time (rest.map (fun f => f.pos))) ∧
      ((rest.foldl add_keyframe_auto st).keyframes.map (fun k => k.pos) =
          st.keyframes.map (fun k => k.pos) ++ rest.map (fun f => f.pos)) := by
  induction rest with
  | nil => intro st _ _ _; simp [autoTimesSpecGo]
  | cons f fs ih =>
      intro st hlen href hchain
      have hne : st.keyframes ≠ [] := by
        intro h
        rw [h] at hlen
        simp at hlen
      have hlen1 : st.keyframes.length ≠ 1 := by omega
      simp only [List.map_cons] at hchain
      have hd : 0 < distQ (st.keyframes.getLastD dKF).pos f.pos := by
        cases hchain with
        | cons hr _ => exact hr
      have hchain' : List.Chain (fun a b : Vec3 => 0 < distQ a b) f.pos
          (fs.map (fun g => g.pos)) := by
        cases hchain with
        | cons _ hc => exact hc
      have hstep : add_keyframe_auto st f = add_keyframe_time st f
          ((st.keyframes.getLastD dKF).time +
            1 * distQ (st.keyframes.getLastD dKF).pos f.pos /
              st.period_reference_distance) := by
        simp only [add_keyframe_auto, if_neg hne, if_neg hlen1]
      have htgt : lastTime st.keyframes <
          (st.keyframes.getLastD dKF).time +
            1 * distQ (st.keyframes.getLastD dKF).pos f.pos /
              st.period_reference_distance := by
        rw [lastTime_eq_getLastD st.keyframes dKF hne]
        have hq : (0 : ℚ) < 1 * distQ (st.keyframes.getLastD dKF).pos f.pos /
            st.period_reference_distance := by
          rw [one_mul]
          exact div_pos hd href
        linarith
      have hacc := add_keyframe_time_accepted st f _ (Or.inr htgt)
      obtain ⟨iht, ihp⟩ := ih
        { st with
          keyframes := st.keyframes ++
            [KeyFrame.ofFrame f
              ((st.keyframes.getLastD dKF).time +
                1 * distQ (st.keyframes.getLastD dKF).pos f.pos /
                  st.period_reference_distance)]
          pathIsValid := false
          last_stopped_index := 0
          started := false }
        (by simp only [List.length_append]; omega) href
        (by
          simp only [List.getLastD_concat]
          exact hchain')
      constructor
      · rw [List.foldl_cons, hstep, hacc, iht]
        simp only [List.getLastD_concat, List.map_append, List.map_cons,
          List.map_nil, KeyFrame.ofFrame, autoTimesSpecGo, one_mul,
          List.append_assoc, List.singleton_append]
      · rw [List.foldl_cons, hstep, hacc, ihp]
        simp [KeyFrame.ofFrame]

/-- Claim C9: for every sequence of auto-timed appends into a fresh
interpolator whose consecutive poses are at positive chord distance, the
assigned times are 0 for the first keyframe, 1 for the second, and for
each subsequent keyframe the previous keyframe's time plus the chord
distance from the previous position divided by the reference distance
recorded between keyframes 0 and 1; the appended positions are exactly the
poses' positions, in order. -/
theorem add_keyframe_auto_times (ps : List Frame)
    (hchain : List.Chain' (fun a b : Frame => 0 < distQ a.pos b.pos) ps) :
    ((ps.foldl add_keyframe_auto initState).keyframes.map (fun k => k.time) =
        autoTimesSpec (ps.map (fun f => f.pos))) ∧
    ((ps.foldl add_keyframe_auto initState).keyframes.map (fun k => k.pos) =
        ps.map (fun f => f.pos)) := by
  match ps, hchain with
  | [], _ => exact ⟨rfl, rfl⟩
  | [f], _ =>
      constructor
      · simp [add_keyframe_auto, add_keyframe_time, initState, autoTimesSpec,
          KeyFrame.ofFrame]
      · simp [add_keyframe_auto, add_keyframe_time, initState,
          KeyFrame.ofFrame]
  | f0 :: f1 :: rest, hchain =>
      have hd01 : 0 < distQ f0.pos f1.pos :=
        (List.chain'_cons.mp hchain).1
      have hchain1 : List.Chain' (fun a b : Frame => 0 < distQ a.pos b.pos)
          (f1 :: rest) := (List.chain'_cons.mp hchain).2
      have hst1 : add_keyframe_auto initState f0 =
          { keyframes := [KeyFrame.ofFrame f0 0], interpolated_path := [],
            pathIsValid := false, last_stopped_index := 0, started := false,
            period_reference_distance := 0 } := by
        simp [add_keyframe_auto, add_keyframe_time, initState]
      have hst2 : add_keyframe_auto (add_keyframe_auto initState f0) f1 =
          { keyframes := [KeyFrame.ofFrame f0 0, KeyFrame.ofFrame f1 1],
            interpolated_path := [], pathIsValid := false,
            last_stopped_index := 0, started := false,
            period_reference_distance := distQ f0.pos f1.pos } := by
        rw [hst1]
        simp [add_keyframe_auto, add_keyframe_time, lastTime,
          KeyFrame.ofFrame]
      have hchainV : List.Chain (fun a b : Vec3 => 0 < distQ a b) f1.pos
          (rest.map (fun f => f.pos)) := by
        clear hst1 hst2 hchain hd01
        induction rest generalizing f1 with
        | nil => exact List.Chain.nil
        | cons g gs ihg =>
            have h1 : 0 < distQ f1.pos g.pos :=
              (List.chain'_cons.mp hchain1).1
            have h2 := (List.chain'_cons.mp hchain1).2
            exact List.Chain.cons h1 (ihg g h2)
      have happ := foldAuto_aux rest
        { keyframes := [KeyFrame.ofFrame f0 0, KeyFrame.ofFrame f1 1],
          interpolated_path := [], pathIsValid := false,
          last_stopped_index := 0, started := false,
          period_reference_distance := distQ f0.pos f1.pos }
        (by simp) hd01
        (by simpa [List.getLastD, KeyFrame.ofFrame] using hchainV)
      rw [List.foldl_cons, List.foldl_cons, hst2]
      obtain ⟨ht, hp⟩ := happ
      constructor
      · rw [ht]
        simp [autoTimesSpec, List.getLastD, KeyFrame.ofFrame]
      · rw [hp]
        simp [KeyFrame.ofFrame]

/-- Concrete instantiation of `add_keyframe_auto_times`: appending poses
at positions (0,0,0), (1,0,0), (3,0,0) assigns the spec-side times (0, 1
and 3 — the reference distance is 1 and the third chord is 2). -/
theorem add_keyframe_auto_times_witness :
    ((psC9.foldl add_keyframe_auto initState).keyframes.map
        (fun k => k.time) =
      autoTimesSpec (psC9.map (fun f => f.pos))) ∧
    ((psC9.foldl add_keyframe_auto initState).keyframes.map
        (fun k => k.pos) =
      psC9.map (fun f => f.pos)) :=
  add_keyframe_auto_times psC9 (by
    norm_num [psC9, List.chain'_cons, List.chain'_singleton, distQ, dist2,
      ratSqrt, show Int.toNat 4 = 4 from rfl, show Int.toNat 1 = 1 from rfl])

/-!  Claim C10: `delete_last_keyframe` has no emptiness guard. -/

/-- Claim C10: `delete_last_keyframe` pops with no emptiness guard: the
unsafe out-of-bounds branch (`none`) is taken exactly on the empty track,
so callers must establish non-emptiness; on a non-empty track it drops the
last keyframe, invalidates the cache, resets the resume index and stops
playback. -/
theorem delete_last_keyframe_spec (st : KFIState) :
    (delete_last_keyframe st = none ↔ st.keyframes = []) ∧
    (st.keyframes ≠ [] →
      delete_last_keyframe st =
        some
          { st with
            keyframes := st.keyframes.dropLast
            pathIsValid := false
            last_stopped_index := 0
            started := false }) := by
  constructor
  · constructor
    · intro h
      by_contra hne
      simp [delete_last_keyframe, hne] at h
    · intro h
      simp [delete_last_keyframe, h]
  · intro h
    simp [delete_last_keyframe, h]

/-- Concrete instantiation of `delete_last_keyframe_spec` at a one-keyframe
state: the pop succeeds and empties the track. -/
theorem delete_last_keyframe_spec_witness :
    delete_last_keyframe
        { initState with keyframes := [dKF] } =
      some { initState with keyframes := [] } :=
  (delete_last_keyframe_spec { initState with keyframes := [dKF] }).2
    (by decide)

/-!  Claim C3: rejected appends are not full no-ops. -/

/-- Claim C3 (as stated, refuted): appending at a time not exceeding the
last keyframe's time is rejected — the keyframe sequence is unchanged —
but the call is not a no-op on the rest of the observable state: the cache
validity flag, the playback resume index and the running flag are all
still reset (lines 138-140 run unconditionally). -/
theorem add_keyframe_time_claim_false :
    stC3.keyframes ≠ [] ∧ (0 : ℚ) ≤ lastTime stC3.keyframes ∧
    (add_keyframe_time stC3 ⟨0, ⟨0, 0, 0, 1⟩⟩ 0).keyframes = stC3.keyframes ∧
    (add_keyframe_time stC3 ⟨0, ⟨0, 0, 0, 1⟩⟩ 0).pathIsValid ≠ stC3.pathIsValid ∧
    (add_keyframe_time stC3 ⟨0, ⟨0, 0, 0, 1⟩⟩ 0).last_stopped_index ≠
      stC3.last_stopped_index ∧
    (add_keyframe_time stC3 ⟨0, ⟨0, 0, 0, 1⟩⟩ 0).started ≠ stC3.started := by
  refine ⟨by simp [stC3], by norm_num [stC3, lastTime, dKF, KeyFrame.ofFrame], ?_, ?_, ?_, ?_⟩ <;>
    simp [add_keyframe_time, stC3, lastTime, dKF, KeyFrame.ofFrame]

/-- Claim C3 (amended): for every non-empty track, appending with a time
not exceeding the last keyframe's time leaves the keyframe sequence (size
and contents) unchanged, and the violation is only logged; but the cache is
still invalidated, the playback resume index reset to 0, and playback
stopped. -/
theorem add_keyframe_time_rejected (st : KFIState) (f : Frame) (t : ℚ)
    (h1 : st.keyframes ≠ []) (h2 : t ≤ lastTime st.keyframes) :
    add_keyframe_time st f t =
      { st with
        pathIsValid := false
        last_stopped_index := 0
        started := false } := by
  simp [add_keyframe_time, h1, h2]

/-- Concrete instantiation of `add_keyframe_time_rejected`: an append at
time 0 onto a track ending at time 0 is rejected, and only the validity
flag, resume index and running flag are reset. -/
theorem add_keyframe_time_rejected_witness :
    add_keyframe_time stC3 ⟨0, ⟨0, 0, 0, 1⟩⟩ 0 =
      { stC3 with
        pathIsValid := false
        last_stopped_index := 0
        started := false } :=
  add_keyframe_time_rejected stC3 ⟨0, ⟨0, 0, 0, 1⟩⟩ 0 (by simp [stC3])
    (by norm_num [stC3, lastTime, dKF, KeyFrame.ofFrame])

/-!  Claim C5: failed loads do not clear the track. -/

/-- Claim C5 (as stated, refuted): when the file cannot be opened,
`read_keyframes` returns failure before reaching `delete_path`, so an
existing non-empty track is left as-is — it is not left empty. -/
theorem read_keyframes_claim_false :
    read_keyframes stC5 none = (stC5, false) ∧ stC5.keyframes ≠ [] := by
  constructor
  · rfl
  · simp [stC5]

/-- Claim C5 (amended): if the file cannot be opened, `read_keyframes`
returns failure and leaves the whole state — in particular the track —
unchanged (the clear happens only after a successful open); and for every
input, a successful return implies at least one keyframe was loaded, i.e.
the resulting track is non-empty. -/
theorem read_keyframes_spec (st : KFIState) (file : Option (List Frame)) :
    (file = none → read_keyframes st file = (st, false)) ∧
    ((read_keyframes st file).2 = true →
      (read_keyframes st file).1.keyframes ≠ []) := by
  constructor
  · intro h
    subst h
    rfl
  · cases file with
    | none =>
        intro h
        simp [read_keyframes] at h
    | some fs =>
        intro h
        simp only [read_keyframes, decide_eq_true_eq] at h ⊢
        exact List.ne_nil_of_length_pos h

/-- Concrete instantiations of `read_keyframes_spec`: a failed open leaves
the one-keyframe state `stC5` intact, and a successful load of a one-frame
file yields a non-empty track. -/
theorem read_keyframes_spec_witness :
    read_keyframes stC5 none = (stC5, false) ∧
    (read_keyframes stC5 (some [⟨0, ⟨0, 0, 0, 1⟩⟩])).1.keyframes ≠ [] :=
  ⟨(read_keyframes_spec stC5 none).1 rfl,
   (read_keyframes_spec stC5 (some [⟨0, ⟨0, 0, 0, 1⟩⟩])).2 (by
      simp [read_keyframes, delete_path, add_keyframe_auto, add_keyframe_time,
        stC5, initState])⟩

end Easy3D
